import Mathlib

/-!
Verification of the spaship path-proxy specification.

The repository's path-proxy subsystem (manifest store, path resolver,
static serving layer, proxy server) ships only its test file in this
tree, so the proxy operations are modelled from the specification text
(each such definition is marked `Modelled from the spec:`).  The
deployment-wizard form logic (`Workflow3` in
`packages/manager/.../settings/index.tsx`) is present in source and is
embedded directly from the code.
-/

namespace Spaship

/-- Splits a character list on a separator character; there is always
at least one (possibly empty) part. -/
def splitOnChar (sep : Char) : List Char → List (List Char)
  | [] => [[]]
  | c :: cs =>
    match splitOnChar sep cs, decide (c = sep) with
    | rest, true => [] :: rest
    | [], false => [[c]]
    | r :: rs, false => (c :: r) :: rs

/-- Splits a request path into its segments: the query string is
stripped at the first `?`, the path is split on `/`, and empty
segments are dropped (this collapses duplicate slashes and ignores
leading/trailing slashes).  This realises the spec's normalization
"strip query string, collapse duplicate slashes". -/
def segments (p : String) : List String :=
  (((splitOnChar '/' (p.data.takeWhile (fun c => c != '?'))).map
      (fun l => (⟨l⟩ : String))).filter (fun s => s != ""))

/-- `isBoundaryPrefix pre p` holds when `pre` is a prefix of `p` that
ends at a path-segment boundary: every segment of `pre` matches the
corresponding segment of `p`.  In particular `/foo` is not a boundary
prefix of `/foobar`. -/
def isBoundaryPrefix (pre p : String) : Bool :=
  (segments pre).isPrefixOf (segments p)

/-- Modelled from the spec: the Manifest Entry data model (§3) — one
record per deployed property version, with `rootDir` held as the
segment list of the directory that contained the manifest. -/
structure ManifestEntry where
  name : String
  path : String
  ref : String
  single : Bool
  deployKey : String
  rootDir : List String
deriving DecidableEq, Repr

/-- Number of path segments of an entry's mounted `path`. -/
def pathLen (e : ManifestEntry) : Nat := (segments e.path).length

/-- Modelled from the spec: the resolver's precedence rule — longer
mounted path wins; on equal length the lexicographically first entry
by `ref` is chosen (§4.2 tie-break). -/
def chooseBetter (a b : ManifestEntry) : ManifestEntry :=
  if pathLen a < pathLen b then b
  else if pathLen b < pathLen a then a
  else if a.ref < b.ref then a else b

/-- Picks the best entry of a candidate list under `chooseBetter`. -/
def pickBest : List ManifestEntry → Option ManifestEntry
  | [] => none
  | e :: es =>
    match pickBest es with
    | none => some e
    | some b => some (chooseBetter e b)

/-- Modelled from the spec: `Resolve(requestPath, index)` (§4.2) —
normalizes the request path, keeps the entries whose `path` is a
boundary-respecting prefix, returns the longest such match together
with the remaining segment suffix, and `none` (NotFound) when no entry
matches. -/
def resolve (p : String) (I : List ManifestEntry) :
    Option (ManifestEntry × List String) :=
  match pickBest (I.filter fun e => (segments e.path).isPrefixOf (segments p)) with
  | none => none
  | some e => some (e, (segments p).drop (segments e.path).length)

theorem chooseBetter_mem (a b : ManifestEntry) :
    chooseBetter a b = a ∨ chooseBetter a b = b := by
  unfold chooseBetter
  split
  · exact Or.inr rfl
  · split
    · exact Or.inl rfl
    · split
      · exact Or.inl rfl
      · exact Or.inr rfl

theorem le_pathLen_chooseBetter_left (a b : ManifestEntry) :
    pathLen a ≤ pathLen (chooseBetter a b) := by
  unfold chooseBetter
  split
  · next h => exact Nat.le_of_lt h
  · split
    · exact Nat.le_refl _
    · split <;> omega

theorem le_pathLen_chooseBetter_right (a b : ManifestEntry) :
    pathLen b ≤ pathLen (chooseBetter a b) := by
  unfold chooseBetter
  split
  · exact Nat.le_refl _
  · next h =>
    split
    · next h2 => exact Nat.le_of_lt h2
    · split <;> omega

theorem pickBest_eq_none_iff (l : List ManifestEntry) :
    pickBest l = none ↔ l = [] := by
  cases l with
  | nil => simp [pickBest]
  | cons e es =>
    simp only [pickBest]
    constructor
    · intro h
      cases hrec : pickBest es <;> simp [hrec] at h
    · intro h
      exact absurd h (by simp)

theorem pickBest_mem {l : List ManifestEntry} {e : ManifestEntry}
    (h : pickBest l = some e) : e ∈ l := by
  induction l with
  | nil => simp [pickBest] at h
  | cons a as ih =>
    simp only [pickBest] at h
    cases hrec : pickBest as with
    | none =>
      rw [hrec] at h
      simp at h
      simp [h]
    | some b =>
      rw [hrec] at h
      simp at h
      rcases chooseBetter_mem a b with hc | hc
      · rw [hc] at h; subst h; exact List.mem_cons_self _ _
      · rw [hc] at h; subst h; exact List.mem_cons_of_mem _ (ih hrec)

theorem pickBest_max {l : List ManifestEntry} {e b : ManifestEntry}
    (hmem : e ∈ l) (h : pickBest l = some b) : pathLen e ≤ pathLen b := by
  induction l generalizing b with
  | nil => simp at hmem
  | cons a as ih =>
    simp only [pickBest] at h
    cases hrec : pickBest as with
    | none =>
      rw [hrec] at h
      simp at h
      subst h
      rcases List.mem_cons.mp hmem with he | he
      · subst he; exact Nat.le_refl _
      · exact absurd ((pickBest_eq_none_iff as).mp hrec ▸ he) (by simp)
    | some c =>
      rw [hrec] at h
      simp at h
      subst h
      rcases List.mem_cons.mp hmem with he | he
      · subst he; exact le_pathLen_chooseBetter_left _ _
      · exact Nat.le_trans (ih he hrec) (le_pathLen_chooseBetter_right a c)

theorem isPrefixOf_exists {l1 l2 : List String}
    (h : l1.isPrefixOf l2 = true) : ∃ t, l1 ++ t = l2 := by
  induction l1 generalizing l2 with
  | nil => exact ⟨l2, rfl⟩
  | cons a as ih =>
    cases l2 with
    | nil => simp [List.isPrefixOf] at h
    | cons b bs =>
      simp only [List.isPrefixOf, Bool.and_eq_true, beq_iff_eq] at h
      obtain ⟨hab, hrec⟩ := h
      obtain ⟨t, ht⟩ := ih hrec
      exact ⟨t, by simp [hab, ht]⟩

/-- Characterisation of a successful resolution: the chosen entry is a
member of the index, its path is a boundary-respecting prefix of the
request, the remainder restores the request, and no index entry with a
boundary-respecting prefix is longer. -/
theorem resolve_some_spec {p : String} {I : List ManifestEntry}
    {e : ManifestEntry} {rem : List String}
    (h : resolve p I = some (e, rem)) :
    e ∈ I ∧ isBoundaryPrefix e.path p = true ∧
    segments p = segments e.path ++ rem ∧
    ∀ e' ∈ I, isBoundaryPrefix e'.path p = true → pathLen e' ≤ pathLen e := by
  unfold resolve at h
  cases hp : pickBest (I.filter fun e => (segments e.path).isPrefixOf (segments p)) with
  | none => rw [hp] at h; simp at h
  | some b =>
    rw [hp] at h
    simp at h
    obtain ⟨he, hrem⟩ := h
    subst he
    have hmem := pickBest_mem hp
    rw [List.mem_filter] at hmem
    obtain ⟨hI, hpref⟩ := hmem
    refine ⟨hI, hpref, ?_, ?_⟩
    · obtain ⟨t, ht⟩ := isPrefixOf_exists hpref
      rw [← hrem, ← ht, List.drop_left]
    · intro e' hI' hpref'
      exact pickBest_max (List.mem_filter.mpr ⟨hI', hpref'⟩) hp

/-- `resolve` returns NotFound exactly when no entry's path is a
boundary-respecting prefix of the request path. -/
theorem resolve_eq_none_iff (p : String) (I : List ManifestEntry) :
    resolve p I = none ↔ ∀ e ∈ I, isBoundaryPrefix e.path p = false := by
  unfold resolve
  cases hp : pickBest (I.filter fun e => (segments e.path).isPrefixOf (segments p)) with
  | none =>
    refine iff_of_true rfl ?_
    intro e he
    have hnil := (pickBest_eq_none_iff _).mp hp
    have hne := List.filter_eq_nil_iff.mp hnil e he
    rw [isBoundaryPrefix]
    cases hb : (segments e.path).isPrefixOf (segments p) with
    | false => rfl
    | true => exact absurd hb (by simpa using hne)
  | some b =>
    refine iff_of_false (by simp) ?_
    intro hall
    have hmem := pickBest_mem hp
    rw [List.mem_filter] at hmem
    have h2 := hall b hmem.1
    rw [isBoundaryPrefix] at h2
    rw [h2] at hmem
    exact absurd hmem.2 (by simp)

/-- The filesystem model: a finite map from file paths (as segment
lists) to file contents.  Only regular files are recorded; directory
paths are absent. -/
abbrev FileSystem := List (List String × String)

/-- Looks a file up in the filesystem model. -/
def lookupFile (fs : FileSystem) (p : List String) : Option String :=
  (fs.find? (fun kv => kv.1 == p)).map (fun kv => kv.2)

/-- Outcome of the static serving layer. -/
inductive ServeOutcome where
  | file (content : String)
  | notFound
  | traversalRejected
deriving DecidableEq, Repr

/-- `remainderPath` contains a directory-traversal sequence when one
of its segments is `..`. -/
def containsTraversal (rem : String) : Bool :=
  (segments rem).contains ".."

/-- POSIX-style resolution of `..` segments against an absolute root:
a `..` segment removes the previously accumulated segment.  Used only
to state what filesystem path an access would really touch. -/
def fsResolve (l : List String) : List String :=
  l.foldl (fun acc s => if s = ".." then acc.dropLast else acc ++ [s]) []

/-- Modelled from the spec: `Serve(entry, remainderPath)` (§4.3) —
rejects directory-traversal sequences before any filesystem access,
joins `entry.rootDir` with the remainder and returns the file there
when it exists.  When it does not exist: an empty remainder serves
`entry.rootDir/index.html` directly when that file exists (§4.3's
second bullet, unconditional on `single`); otherwise, when the entry
is flagged `single`, it falls back to `entry.rootDir/index.html`; in
every remaining case it reports NotFound. -/
def serve (fs : FileSystem) (e : ManifestEntry) (rem : String) : ServeOutcome :=
  if containsTraversal rem then .traversalRejected
  else
    match lookupFile fs (e.rootDir ++ segments rem) with
    | some c => .file c
    | none =>
      if segments rem = [] then
        match lookupFile fs (e.rootDir ++ ["index.html"]) with
        | some c => .file c
        | none => .notFound
      else if e.single then
        match lookupFile fs (e.rootDir ++ ["index.html"]) with
        | some c => .file c
        | none => .notFound
      else .notFound

/-- The filesystem paths `serve` consults, in order: none at all when
the remainder is rejected for traversal, otherwise the joined path
and, when that misses and either the remainder is empty or the entry
is flagged `single`, the entry's `index.html`. -/
def accessedPaths (fs : FileSystem) (e : ManifestEntry) (rem : String) :
    List (List String) :=
  if containsTraversal rem then []
  else
    let full := e.rootDir ++ segments rem
    match lookupFile fs full with
    | some _ => [full]
    | none =>
      if segments rem = [] then [full, e.rootDir ++ ["index.html"]]
      else if e.single then [full, e.rootDir ++ ["index.html"]]
      else [full]

/-- Translation of a serve outcome to the HTTP response (§4.4):
200 with the content for a found file, 404 for NotFound, 400 for a
rejected traversal. -/
structure HttpResponse where
  status : Nat
  body : String
deriving DecidableEq, Repr

/-- Maps a serve outcome to the HTTP response surfaced to the client. -/
def outcomeToResponse : ServeOutcome → HttpResponse
  | .file c => ⟨200, c⟩
  | .notFound => ⟨404, ""⟩
  | .traversalRejected => ⟨400, ""⟩

/-- Rebuilds a request-path suffix from resolved remainder segments. -/
def joinSegments : List String → String
  | [] => ""
  | [s] => s
  | s :: rest => s ++ "/" ++ joinSegments rest

/-- Modelled from the spec: per-request handling of the Proxy Server
(§4.4) — Resolve, then Serve, then translate the outcome; NotFound at
resolution is surfaced as 404. -/
def handleRequest (fs : FileSystem) (I : List ManifestEntry) (p : String) :
    HttpResponse :=
  match resolve p I with
  | none => ⟨404, ""⟩
  | some (e, remSegs) => outcomeToResponse (serve fs e (joinSegments remSegs))

theorem fsResolve_go_no_dotdot (l : List String) (acc : List String)
    (h : ∀ s ∈ l, s ≠ "..") :
    l.foldl (fun acc s => if s = ".." then acc.dropLast else acc ++ [s]) acc
      = acc ++ l := by
  induction l generalizing acc with
  | nil => simp
  | cons a as ih =>
    have ha : a ≠ ".." := h a (List.mem_cons_self _ _)
    simp only [List.foldl_cons, if_neg ha]
    rw [ih _ (fun s hs => h s (List.mem_cons_of_mem _ hs))]
    simp

theorem fsResolve_no_dotdot (l : List String) (h : ∀ s ∈ l, s ≠ "..") :
    fsResolve l = l := by
  unfold fsResolve
  simpa using fsResolve_go_no_dotdot l [] h

theorem not_containsTraversal_iff (rem : String) :
    containsTraversal rem = false ↔ ∀ s ∈ segments rem, s ≠ ".." := by
  unfold containsTraversal
  constructor
  · intro h s hs hcontra
    subst hcontra
    rw [Bool.eq_false_iff] at h
    exact h (List.elem_iff.mpr hs)
  · intro h
    rw [Bool.eq_false_iff]
    intro hmem
    exact h _ (List.elem_iff.mp hmem) rfl

/-- A parsed manifest before its on-disk location is attached. -/
structure RawManifest where
  name : String
  path : String
  ref : String
  single : Bool
  deployKey : String
deriving DecidableEq, Repr

/-- Splits a character list at the first `:`, returning the part
before it and the part after it. -/
def breakAtColon : List Char → Option (List Char × List Char)
  | [] => none
  | c :: cs =>
    if c = ':' then some ([], cs)
    else (breakAtColon cs).map (fun p => (c :: p.1, p.2))

/-- Parses one `key: value` line of a manifest file: the key is
everything before the first `:`, which must be followed by a single
space and the value. -/
def parseLine (l : String) : Option (String × String) :=
  match breakAtColon l.data with
  | none => none
  | some (k, ' ' :: v) => some (⟨k⟩, ⟨v⟩)
  | some _ => none

/-- Modelled from the spec: manifest parsing (§4.1, §6) — the manifest
is structured text with one `key: value` per line (keys `name`,
`path`, `ref`, `single`, `deploykey`); content is malformed when a
non-empty line is not of that shape or a required key is missing. -/
def parseManifest (c : String) : Option RawManifest :=
  match (((splitOnChar '\n' c.data).map (fun l => (⟨l⟩ : String))).filter
      (fun l => l != "")).mapM parseLine with
  | none => none
  | some kvs =>
    match kvs.lookup "name", kvs.lookup "path", kvs.lookup "ref" with
    | some n, some p, some r =>
      some ⟨n, p, r, kvs.lookup "single" == some "true",
            (kvs.lookup "deploykey").getD ""⟩
    | _, _, _ => none

/-- Attaches the directory that contained the manifest as `rootDir`. -/
def mkEntry (d : List String) (m : RawManifest) : ManifestEntry :=
  ⟨m.name, m.path, m.ref, m.single, m.deployKey, d⟩

/-- The input to a scan: the directories of the base tree that hold a
manifest file, paired with that manifest's content. -/
abbrev DirTree := List (List String × String)

/-- Modelled from the spec: `Scan(rootDirectory)` (§4.1) — parses
every manifest found in the tree into a `ManifestEntry` rooted at the
manifest's directory, skipping (not aborting on) malformed content. -/
def scan (t : DirTree) : List ManifestEntry :=
  t.filterMap (fun dc => (parseManifest dc.2).map (mkEntry dc.1))

/-- Modelled from the spec: the server state after a successful
`Start()` — the active resolution index. -/
structure ProxyState where
  index : List ManifestEntry
deriving DecidableEq, Repr

/-- Modelled from the spec: `Start()` (§4.4) — fails fatally when the
listening port is already bound, succeeds once the listener accepts
connections, with whatever index (possibly empty) the initial scan
produced. -/
def startProxy (portFree : Bool) (idx : List ManifestEntry) :
    Except String ProxyState :=
  if portFree then .ok ⟨idx⟩ else .error "listen port already bound"

/-- Events of the concurrency model: the single writer atomically
publishes a whole new index, and requests are dispatched against the
index reference current at their dispatch point. -/
inductive ProxyEvent where
  | swap (newIndex : List ManifestEntry)
  | request (p : String)
deriving DecidableEq, Repr

/-- Modelled from the spec: the shared-resource policy (§5) — the
resolution index is replaced, never mutated in place; each request
takes the index reference current at dispatch and computes its full
response from that snapshot. -/
def runTrace (fs : FileSystem) :
    List ManifestEntry → List ProxyEvent → List (String × HttpResponse)
  | _, [] => []
  | _, .swap newIdx :: rest => runTrace fs newIdx rest
  | idx, .request p :: rest => (p, handleRequest fs idx p) :: runTrace fs idx rest

/-- The index that is active after a list of events has been
processed. -/
def currentIndex : List ManifestEntry → List ProxyEvent → List ManifestEntry
  | idx, [] => idx
  | _, .swap newIdx :: rest => currentIndex newIdx rest
  | idx, .request _ :: rest => currentIndex idx rest

theorem runTrace_append (fs : FileSystem) (idx : List ManifestEntry)
    (a b : List ProxyEvent) :
    runTrace fs idx (a ++ b) =
      runTrace fs idx a ++ runTrace fs (currentIndex idx a) b := by
  induction a generalizing idx with
  | nil => simp [runTrace, currentIndex]
  | cons ev rest ih =>
    cases ev with
    | swap newIdx => simpa [runTrace, currentIndex] using ih newIdx
    | request p => simpa [runTrace, currentIndex] using ih idx

theorem runTrace_snapshot (fs : FileSystem) (idx : List ManifestEntry)
    (evs : List ProxyEvent) :
    ∀ pr ∈ runTrace fs idx evs,
      ∃ J, (J = idx ∨ ProxyEvent.swap J ∈ evs) ∧
        pr.2 = handleRequest fs J pr.1 := by
  induction evs generalizing idx with
  | nil => intro pr hpr; simp [runTrace] at hpr
  | cons ev rest ih =>
    cases ev with
    | swap newIdx =>
      intro pr hpr
      obtain ⟨J, hJ, hresp⟩ := ih newIdx pr (by simpa [runTrace] using hpr)
      rcases hJ with hJ | hJ
      · exact ⟨J, Or.inr (by simp [hJ]), hresp⟩
      · exact ⟨J, Or.inr (by simp [hJ]), hresp⟩
    | request p =>
      intro pr hpr
      simp only [runTrace, List.mem_cons] at hpr
      rcases hpr with hpr | hpr
      · exact ⟨idx, Or.inl rfl, by simp [hpr]⟩
      · obtain ⟨J, hJ, hresp⟩ := ih idx pr hpr
        rcases hJ with hJ | hJ
        · exact ⟨J, Or.inl hJ, hresp⟩
        · exact ⟨J, Or.inr (by simp [hJ]), hresp⟩

/-- The bundled sample deployment of the path-proxy test: one property
`Foo` mounted at `/foo`, deployed from `/var/www/spaship/foo`. -/
def sampleManifest : String :=
  "name: Foo\npath: /foo\nref: v1.0.1\nsingle: true\ndeploykey: sehvgqrnyre"

/-- Directory of the sample property's assets. -/
def sampleRoot : List String := ["var", "www", "spaship", "foo"]

/-- The sample base-directory tree handed to the scan. -/
def sampleTree : DirTree := [(sampleRoot, sampleManifest)]

/-- The sample property's files on disk. -/
def sampleFs : FileSystem :=
  [(sampleRoot ++ ["spaship.yaml"], sampleManifest),
   (sampleRoot ++ ["index.html"], "I AM FOO")]

/-- The resolution index built from the sample tree. -/
def sampleIndex : List ManifestEntry := scan sampleTree

/-! ### Deployment wizard (`Workflow3` in
`packages/manager/pages/properties/[propertyName]/settings/index.tsx`) -/

/-- JavaScript `String.prototype.startsWith`: the candidate prefix's
characters are an initial run of the receiver's characters. -/
def jsStartsWith (s pre : String) : Bool :=
  pre.data.isPrefixOf s.data

/-- JavaScript `String.prototype.trim`: removes leading and trailing
whitespace. -/
def jsTrim (s : String) : String :=
  ⟨((s.data.dropWhile Char.isWhitespace).reverse.dropWhile
      Char.isWhitespace).reverse⟩

/-- The step-5 `onSubmit` transformation applied to `data.path` and
`data.healthCheckPath`:
`data.path.trim().startsWith('/') ? data.path.trim() : ` followed by
backtick-`/${data.path.trim()}`. -/
def withLeadingSlash (s : String) : String :=
  let t := jsTrim s
  if jsStartsWith t "/" then t else "/" ++ t

/-- The two path fields of the payload `newdata` built by `onSubmit`
at step 5. -/
structure SubmitPayloadPaths where
  path : String
  healthCheckPath : String
deriving DecidableEq, Repr

/-- Builds the `path`/`healthCheckPath` fields of the step-5 payload
exactly as `onSubmit` does. -/
def submitPayloadPaths (p hc : String) : SubmitPayloadPaths :=
  ⟨withLeadingSlash p, withLeadingSlash hc⟩

theorem slash_append_data (t : String) : ("/" ++ t).data = '/' :: t.data := by
  cases t
  rfl

theorem withLeadingSlash_starts (s : String) :
    jsStartsWith (withLeadingSlash s) "/" = true := by
  unfold withLeadingSlash
  cases h : jsStartsWith (jsTrim s) "/" with
  | true => simp [h]
  | false =>
    simp only [h, Bool.false_eq_true, if_false]
    unfold jsStartsWith
    rw [slash_append_data]
    have hd : ("/" : String).data = ['/'] := rfl
    rw [hd]
    simp [List.isPrefixOf]

/-! ### Claim theorems -/

/-- The sample property's manifest entry, as produced by the scan. -/
def fooEntry : ManifestEntry :=
  ⟨"Foo", "/foo", "v1.0.1", true, "sehvgqrnyre", sampleRoot⟩

/-- The sample entry with the SPA flag off. -/
def fooEntryMulti : ManifestEntry :=
  ⟨"Foo", "/foo", "v1.0.1", false, "sehvgqrnyre", sampleRoot⟩

/-- C1: for every normalized request path and index, a successful
resolution returns an index entry whose `path` is a boundary-respecting
prefix of the request (so `/foo` never matches `/foobar`), with the
remaining suffix after the prefix, and no other index entry with a
boundary-respecting prefix is longer; resolution returns NotFound
exactly when no entry's path is a boundary-respecting prefix. -/
theorem claim_resolve_longest_prefix_correct :
    ∀ (p : String) (I : List ManifestEntry),
      (∀ e rem, resolve p I = some (e, rem) →
        e ∈ I ∧ isBoundaryPrefix e.path p = true ∧
        segments p = segments e.path ++ rem ∧
        ∀ e2 ∈ I, isBoundaryPrefix e2.path p = true → pathLen e2 ≤ pathLen e) ∧
      (resolve p I = none ↔ ∀ e ∈ I, isBoundaryPrefix e.path p = false) ∧
      isBoundaryPrefix "/foo" "/foobar" = false := by
  intro p I
  exact ⟨fun e rem h => resolve_some_spec h, resolve_eq_none_iff p I, by decide⟩

/-- Witness for C1 at the sample entry and the request `/foo/bar`. -/
theorem claim_resolve_longest_prefix_correct_witness :
    fooEntry ∈ [fooEntry] ∧ isBoundaryPrefix fooEntry.path "/foo/bar" = true ∧
    segments "/foo/bar" = segments fooEntry.path ++ ["bar"] :=
  have h := (claim_resolve_longest_prefix_correct "/foo/bar" [fooEntry]).1
    fooEntry ["bar"] (by decide)
  ⟨h.1, h.2.1, h.2.2.1⟩

/-- C2: for every entry and remainder path, a remainder containing a
`..` traversal sequence is rejected before any filesystem access (the
outcome is `traversalRejected`, no path is consulted, the client sees
400 or 403, and no file is ever served); and every filesystem path the
serving layer does consult stays inside `entry.rootDir` once `..`
resolution is applied. -/
theorem claim_serve_traversal_safety :
    ∀ (fs : FileSystem) (e : ManifestEntry) (rem : String),
      (containsTraversal rem = true →
        serve fs e rem = ServeOutcome.traversalRejected ∧
        accessedPaths fs e rem = [] ∧
        ((outcomeToResponse (serve fs e rem)).status = 400 ∨
          (outcomeToResponse (serve fs e rem)).status = 403) ∧
        ∀ c, serve fs e rem ≠ ServeOutcome.file c) ∧
      (".." ∉ e.rootDir →
        ∀ a ∈ accessedPaths fs e rem, ∃ t, e.rootDir ++ t = fsResolve a) := by
  intro fs e rem
  constructor
  · intro ht
    have hs : serve fs e rem = ServeOutcome.traversalRejected := by
      simp [serve, ht]
    refine ⟨hs, by simp [accessedPaths, ht], by rw [hs]; exact Or.inl rfl, ?_⟩
    intro c hc
    rw [hs] at hc
    exact ServeOutcome.noConfusion hc
  · intro hroot a ha
    by_cases htr : containsTraversal rem = true
    · simp [accessedPaths, htr] at ha
    · have htr2 : containsTraversal rem = false := by
        simpa using htr
      have hsegs := (not_containsTraversal_iff rem).mp htr2
      have hclean : ∀ s ∈ e.rootDir ++ segments rem, s ≠ ".." := by
        intro s hs
        rcases List.mem_append.mp hs with hs | hs
        · intro hcontra; subst hcontra; exact hroot hs
        · exact hsegs s hs
      have hmem : a = e.rootDir ++ segments rem ∨ a = e.rootDir ++ ["index.html"] := by
        simp only [accessedPaths, htr2, Bool.false_eq_true, if_false] at ha
        rcases hlk : lookupFile fs (e.rootDir ++ segments rem) with _ | c
        · rw [hlk] at ha
          by_cases hemp : segments rem = []
          · rw [if_pos hemp] at ha
            simpa using ha
          · rw [if_neg hemp] at ha
            rcases hsi : e.single with _ | _ <;> rw [hsi] at ha <;> simp at ha
            · exact Or.inl ha
            · exact ha
        · rw [hlk] at ha
          simp at ha
          exact Or.inl ha
      rcases hmem with hmem | hmem
      · subst hmem
        rw [fsResolve_no_dotdot _ hclean]
        exact ⟨segments rem, rfl⟩
      · subst hmem
        have hclean2 : ∀ s ∈ e.rootDir ++ ["index.html"], s ≠ ".." := by
          intro s hs
          rcases List.mem_append.mp hs with hs | hs
          · intro hcontra; subst hcontra; exact hroot hs
          · simp at hs; subst hs; decide
        rw [fsResolve_no_dotdot _ hclean2]
        exact ⟨["index.html"], rfl⟩

/-- Witness for C2 at the sample entry and the remainder
`../../etc/passwd`. -/
theorem claim_serve_traversal_safety_witness :
    containsTraversal "../../etc/passwd" = true ∧
    serve sampleFs fooEntry "../../etc/passwd" =
      ServeOutcome.traversalRejected ∧
    accessedPaths sampleFs fooEntry "../../etc/passwd" = [] ∧
    ((outcomeToResponse (serve sampleFs fooEntry "../../etc/passwd")).status = 400 ∨
      (outcomeToResponse (serve sampleFs fooEntry "../../etc/passwd")).status = 403) :=
  have h := (claim_serve_traversal_safety sampleFs fooEntry "../../etc/passwd").1
    (by decide)
  ⟨by decide, h.1, h.2.1, h.2.2.1⟩

/-- Counterexample to C3 as stated: at the empty remainder, the entry
with `single` off and `index.html` present on disk, every hypothesis
of the claim's `single=false` conjunct holds, yet `serve` answers the
`index.html` file — not NotFound — because §4.3's empty-remainder rule
serves `rootDir/index.html` directly, unconditionally on `single`. -/
theorem claim_serve_spa_fallback_counterexample :
    containsTraversal "" = false ∧
    lookupFile sampleFs (fooEntryMulti.rootDir ++ segments "") = none ∧
    fooEntryMulti.single = false ∧
    serve sampleFs fooEntryMulti "" = ServeOutcome.file "I AM FOO" ∧
    serve sampleFs fooEntryMulti "" ≠ ServeOutcome.notFound := by
  refine ⟨by decide, by decide, by decide, by decide, by decide⟩

/-- C3 (amended): for a remainder free of traversal sequences, serving
returns the file at `rootDir` joined with the remainder when it
exists; when it is missing and the entry is flagged `single`, it falls
back to `rootDir/index.html`, and when the fallback is also missing it
reports NotFound; when `single` is false a missing *non-empty*
sub-path yields NotFound (surfaced as 404) with no fallback; and at an
empty remainder an existing `rootDir/index.html` is served directly,
regardless of `single`. -/
theorem claim_serve_spa_fallback :
    ∀ (fs : FileSystem) (e : ManifestEntry) (rem : String),
      containsTraversal rem = false →
      (∀ c, lookupFile fs (e.rootDir ++ segments rem) = some c →
        serve fs e rem = ServeOutcome.file c) ∧
      (lookupFile fs (e.rootDir ++ segments rem) = none → e.single = true →
        ∀ c, lookupFile fs (e.rootDir ++ ["index.html"]) = some c →
          serve fs e rem = ServeOutcome.file c) ∧
      (lookupFile fs (e.rootDir ++ segments rem) = none → e.single = true →
        lookupFile fs (e.rootDir ++ ["index.html"]) = none →
          serve fs e rem = ServeOutcome.notFound) ∧
      (segments rem ≠ [] → lookupFile fs (e.rootDir ++ segments rem) = none →
        e.single = false → serve fs e rem = ServeOutcome.notFound) ∧
      (segments rem = [] → lookupFile fs (e.rootDir ++ segments rem) = none →
        ∀ c, lookupFile fs (e.rootDir ++ ["index.html"]) = some c →
          serve fs e rem = ServeOutcome.file c) ∧
      (outcomeToResponse ServeOutcome.notFound).status = 404 := by
  intro fs e rem h
  refine ⟨?_, ?_, ?_, ?_, ?_, rfl⟩
  · intro c hc
    simp [serve, h, hc]
  · intro hmain hsingle c hidx
    by_cases hemp : segments rem = []
    · rw [hemp, List.append_nil] at hmain
      simp [serve, h, hmain, hsingle, hidx, hemp]
    · simp [serve, h, hmain, hsingle, hidx, hemp]
  · intro hmain hsingle hidx
    by_cases hemp : segments rem = []
    · rw [hemp, List.append_nil] at hmain
      simp [serve, h, hmain, hsingle, hidx, hemp]
    · simp [serve, h, hmain, hsingle, hidx, hemp]
  · intro hemp hmain hsingle
    simp [serve, h, hmain, hsingle, hemp]
  · intro hemp hmain c hidx
    rw [hemp, List.append_nil] at hmain
    simp [serve, h, hmain, hemp, hidx]

/-- Witness for the amended C3: the sample filesystem serves the SPA
fallback for a missing sub-path when `single` is true, 404s the same
sub-path when it is false, and serves `index.html` directly at the
empty remainder even with `single` false. -/
theorem claim_serve_spa_fallback_witness :
    containsTraversal "missing.js" = false ∧
    serve sampleFs fooEntry "missing.js" = ServeOutcome.file "I AM FOO" ∧
    serve sampleFs fooEntryMulti "missing.js" = ServeOutcome.notFound ∧
    serve sampleFs fooEntryMulti "" = ServeOutcome.file "I AM FOO" :=
  have hspa := (claim_serve_spa_fallback sampleFs fooEntry "missing.js"
    (by decide)).2.1 (by decide) (by decide) "I AM FOO" (by decide)
  have hmulti := (claim_serve_spa_fallback sampleFs fooEntryMulti "missing.js"
    (by decide)).2.2.2.1 (by decide) (by decide) (by decide)
  have hempty := (claim_serve_spa_fallback sampleFs fooEntryMulti ""
    (by decide)).2.2.2.2.1 (by decide) (by decide) "I AM FOO" (by decide)
  ⟨by decide, hspa, hmulti, hempty⟩

/-- C4: for the bundled sample deployment (`name: Foo, path: /foo,
ref: v1.0.1, single: true` with `index.html` containing `I AM FOO`),
starting succeeds and a `GET /foo/` request yields a well-formed
response with status in the 2xx–4xx range — in fact exactly status 200
with body `I AM FOO`. -/
theorem claim_sample_deployment_request :
    startProxy true sampleIndex = Except.ok ⟨sampleIndex⟩ ∧
    handleRequest sampleFs sampleIndex "/foo/" =
      ⟨200, "I AM FOO"⟩ ∧
    200 ≤ (handleRequest sampleFs sampleIndex "/foo/").status ∧
    (handleRequest sampleFs sampleIndex "/foo/").status ≤ 499 :=
  ⟨rfl, by decide, by decide, by decide⟩

/-- C5: the resolution index is published by whole-value swaps: every
response in a trace is computed against exactly one published index —
the initial one or the payload of some swap event, never a mixture —
and appending a swap followed by a new request leaves all earlier
responses (in-flight work against the old snapshot) unchanged while
the new request observes exactly the newly published index. -/
theorem claim_index_swap_atomicity :
    ∀ (fs : FileSystem) (idx : List ManifestEntry) (evs : List ProxyEvent),
      (∀ pr ∈ runTrace fs idx evs,
        ∃ J, (J = idx ∨ ProxyEvent.swap J ∈ evs) ∧
          pr.2 = handleRequest fs J pr.1) ∧
      (∀ (I : List ManifestEntry) (p : String),
        runTrace fs idx (evs ++ [ProxyEvent.swap I, ProxyEvent.request p]) =
          runTrace fs idx evs ++ [(p, handleRequest fs I p)]) := by
  intro fs idx evs
  refine ⟨runTrace_snapshot fs idx evs, ?_⟩
  intro I p
  rw [runTrace_append]
  rfl

/-- Witness for C5: after swapping in the sample index, a new `/foo/`
request is answered from the new index while the trace prefix is
untouched. -/
theorem claim_index_swap_atomicity_witness :
    runTrace sampleFs [] ([ProxyEvent.request "/foo/"] ++
        [ProxyEvent.swap sampleIndex, ProxyEvent.request "/foo/"]) =
      runTrace sampleFs [] [ProxyEvent.request "/foo/"] ++
        [("/foo/", handleRequest sampleFs sampleIndex "/foo/")] :=
  (claim_index_swap_atomicity sampleFs [] [ProxyEvent.request "/foo/"]).2
    sampleIndex "/foo/"

/-- C6: a malformed manifest is skipped without aborting the scan —
removing it from the input tree leaves exactly the entries of the rest
of the tree — and every well-formed manifest in the tree contributes
its entry regardless of malformed neighbours. -/
theorem claim_scan_skips_malformed :
    (∀ (pre post : DirTree) (d : List String) (bad : String),
      parseManifest bad = none →
      scan (pre ++ (d, bad) :: post) = scan pre ++ scan post) ∧
    (∀ (t : DirTree) (d : List String) (c : String) (m : RawManifest),
      (d, c) ∈ t → parseManifest c = some m → mkEntry d m ∈ scan t) := by
  constructor
  · intro pre post d bad h
    simp [scan, List.filterMap_append, List.filterMap_cons, h]
  · intro t d c m hmem hparse
    exact List.mem_filterMap.mpr ⟨(d, c), hmem, by simp [hparse]⟩

/-- Witness for C6: a tree holding one malformed manifest and the
sample manifest scans to exactly the sample entry. -/
theorem claim_scan_skips_malformed_witness :
    parseManifest "garbage without colon" = none ∧
    scan ([] ++ (["tmp"], "garbage without colon") :: sampleTree) =
      scan [] ++ scan sampleTree ∧
    mkEntry sampleRoot ⟨"Foo", "/foo", "v1.0.1", true, "sehvgqrnyre"⟩ ∈
      scan sampleTree :=
  ⟨by decide,
   claim_scan_skips_malformed.1 [] sampleTree ["tmp"] "garbage without colon"
     (by decide),
   claim_scan_skips_malformed.2 sampleTree sampleRoot sampleManifest
     ⟨"Foo", "/foo", "v1.0.1", true, "sehvgqrnyre"⟩ (by decide) (by decide)⟩

/-- C7: starting succeeds whenever the listen port is free, even with
an empty index; with an empty index every request is answered 404; and
in general any request path no index entry covers is answered 404. -/
theorem claim_start_with_empty_index :
    (∀ idx, startProxy true idx = Except.ok ⟨idx⟩) ∧
    (∀ (fs : FileSystem) (p : String), handleRequest fs [] p = ⟨404, ""⟩) ∧
    (∀ (fs : FileSystem) (I : List ManifestEntry) (p : String),
      (∀ e ∈ I, isBoundaryPrefix e.path p = false) →
      (handleRequest fs I p).status = 404) := by
  refine ⟨fun idx => rfl, fun fs p => ?_, fun fs I p h => ?_⟩
  · have hres : resolve p [] = none := (resolve_eq_none_iff p []).mpr (by simp)
    simp [handleRequest, hres]
  · have hres : resolve p I = none := (resolve_eq_none_iff p I).mpr h
    simp [handleRequest, hres]

/-- Witness for C7: an unmounted path against the sample index is
answered 404, as is any path against the empty index. -/
theorem claim_start_with_empty_index_witness :
    handleRequest sampleFs [] "/anything" = ⟨404, ""⟩ ∧
    (handleRequest sampleFs sampleIndex "/unmounted").status = 404 :=
  ⟨claim_start_with_empty_index.2.1 sampleFs "/anything",
   claim_start_with_empty_index.2.2 sampleFs sampleIndex "/unmounted"
     (by decide)⟩

/-- C8: request handling is a pure function of the request and the
index snapshot — two identical requests against an unchanged index and
filesystem produce byte-identical responses. -/
theorem claim_identical_requests_identical_responses :
    ∀ (fs : FileSystem) (I : List ManifestEntry) (r1 r2 : String),
      r1 = r2 → handleRequest fs I r1 = handleRequest fs I r2 := by
  intro fs I r1 r2 h
  rw [h]

/-- Witness for C8 at the sample request. -/
theorem claim_identical_requests_identical_responses_witness :
    ("/foo/" : String) = "/foo/" ∧
    handleRequest sampleFs sampleIndex "/foo/" =
      handleRequest sampleFs sampleIndex "/foo/" :=
  ⟨rfl, claim_identical_requests_identical_responses sampleFs sampleIndex
    "/foo/" "/foo/" rfl⟩

/-- C9: the step-5 submission payload always carries `path` and
`healthCheckPath` beginning with a forward slash: each value is
trimmed and a leading slash is prepended exactly when the trimmed
value does not already start with one; trimmed values that already
start with a slash pass through unchanged. -/
theorem claim_submit_paths_leading_slash :
    ∀ (p hc : String),
      jsStartsWith (submitPayloadPaths p hc).path "/" = true ∧
      jsStartsWith (submitPayloadPaths p hc).healthCheckPath "/" = true ∧
      (jsStartsWith (jsTrim p) "/" = true →
        (submitPayloadPaths p hc).path = jsTrim p) ∧
      (jsStartsWith (jsTrim p) "/" = false →
        (submitPayloadPaths p hc).path = "/" ++ jsTrim p) ∧
      (jsStartsWith (jsTrim hc) "/" = true →
        (submitPayloadPaths p hc).healthCheckPath = jsTrim hc) ∧
      (jsStartsWith (jsTrim hc) "/" = false →
        (submitPayloadPaths p hc).healthCheckPath = "/" ++ jsTrim hc) := by
  intro p hc
  refine ⟨withLeadingSlash_starts p, withLeadingSlash_starts hc,
    fun h => ?_, fun h => ?_, fun h => ?_, fun h => ?_⟩ <;>
    simp [submitPayloadPaths, withLeadingSlash, h]

/-- Witness for C9 on the inputs `"  app "` and `"/health"`. -/
theorem claim_submit_paths_leading_slash_witness :
    jsStartsWith (submitPayloadPaths "  app " "/health").path "/" = true ∧
    jsStartsWith (submitPayloadPaths "  app " "/health").healthCheckPath "/"
      = true ∧
    (submitPayloadPaths "  app " "/health").path = "/app" ∧
    (submitPayloadPaths "  app " "/health").healthCheckPath = "/health" :=
  have h := claim_submit_paths_leading_slash "  app " "/health"
  ⟨h.1, h.2.1, by decide, h.2.2.2.2.1 (by decide)⟩

end Spaship
